import Mathlib

/-!
Verification of the mmwserial frame-acquisition layer.

The repository ships a native extension module (`mmwserial.mmwserial`,
implemented outside the visible Python sources) together with a thin Python
wrapper (`mmwserial/udp.py`).  The wrapper is embedded here directly from its
source.  The native core — the `ByteStreamSync` magic-word scanner, the serial
`RadarReader`, and the native UDP reader — is not among the visible sources,
so it is modelled from the specification (sections 3, 4.1, 4.2, 4.3, 7 of the
design document); each such definition carries a doc comment saying so.

Bytes are modelled as natural numbers (< 256 for well-formed data); byte
sequences as `List Nat`; fallible results as `Option` / `Except`.
-/

namespace Mmwserial

/-- Modelled from the spec: the 8-byte magic-word sentinel used for stream
synchronization ("e.g. bytes 01 02 03 04 05 06 07 08"). -/
def magicWord : List Nat := [1, 2, 3, 4, 5, 6, 7, 8]

/-- Byte of a buffer at an index, 0 past the end. -/
def byteAt (l : List Nat) (i : Nat) : Nat := l.getD i 0

/-- Little-endian unsigned 32-bit read at offset `i`. -/
def readU32 (l : List Nat) (i : Nat) : Nat :=
  byteAt l i + 256 * byteAt l (i + 1) + 65536 * byteAt l (i + 2) +
    16777216 * byteAt l (i + 3)

/-- Little-endian 4-byte encoding of an unsigned 32-bit value. -/
def u32le (n : Nat) : List Nat :=
  [n % 256, n / 256 % 256, n / 65536 % 256, n / 16777216 % 256]

/-- Modelled from the spec: byte length of the fixed-layout header fields
(8 unsigned 32-bit fields: version, total_packet_len, platform, frame_number,
time_cpu_cycles, num_detected_obj, num_tlvs, subframe_number). -/
def headerFieldsLen : Nat := 32

/-- Modelled from the spec: minimum frame length — magic word (8 bytes) plus
the header fields (32 bytes). -/
def headerLen : Nat := 40

/-- Modelled from the spec: the configured maximum accepted frame length
("a sane upper bound"). -/
def maxFrameSize : Nat := 65536

/-- Modelled from the spec: the fixed-layout frame header found immediately
after the magic word (all fields unsigned 32-bit, little-endian). -/
structure FrameHeader where
  version : Nat
  total_packet_len : Nat
  platform : Nat
  frame_number : Nat
  time_cpu_cycles : Nat
  num_detected_obj : Nat
  num_tlvs : Nat
  subframe_number : Nat
deriving DecidableEq, Repr

/-- Modelled from the spec: a type-length-value record — `tlv_length` is the
payload length excluding the record's own 8-byte type/length prelude. -/
structure TLV where
  tlv_type : Nat
  tlv_length : Nat
  payload : List Nat
deriving DecidableEq, Repr

/-- Modelled from the spec: a validated frame — header, ordered TLV sequence,
and the raw byte length of the whole frame. -/
structure RadarPacket where
  header : FrameHeader
  tlvs : List TLV
  raw_length : Nat
deriving DecidableEq, Repr

/-- Decode the header fields of a frame slice (which starts with the magic
word, so the fields sit at byte offsets 8, 12, ..., 36). -/
def parseHeader (f : List Nat) : FrameHeader :=
  ⟨readU32 f 8, readU32 f 12, readU32 f 16, readU32 f 20,
   readU32 f 24, readU32 f 28, readU32 f 32, readU32 f 36⟩

/-- Modelled from the spec: sequential TLV walk — consume exactly the given
number of records; a record whose declared length extends past the remaining
bytes, running out of bytes before the count is consumed, or leftover bytes
after the count is consumed, are all validation errors. -/
def parseTLVs : Nat → List Nat → Option (List TLV)
  | 0, bytes => if bytes = [] then some [] else none
  | n + 1, bytes =>
    if 8 ≤ bytes.length then
      if 8 + readU32 bytes 4 ≤ bytes.length then
        match parseTLVs n (bytes.drop (8 + readU32 bytes 4)) with
        | some ts =>
          some (⟨readU32 bytes 0, readU32 bytes 4,
                 (bytes.drop 8).take (readU32 bytes 4)⟩ :: ts)
        | none => none
      else none
    else none

/-- Modelled from the spec: validate and decode one frame slice of exactly the
declared `total_packet_len` bytes: magic word, header decode, and the TLV walk
whose lengths must reconcile exactly with the declared total. -/
def parseFrame (f : List Nat) : Option RadarPacket :=
  if f.take 8 = magicWord ∧ headerLen ≤ f.length ∧ readU32 f 12 = f.length then
    match parseTLVs (parseHeader f).num_tlvs (f.drop headerLen) with
    | some ts => some ⟨parseHeader f, ts, (parseHeader f).total_packet_len⟩
    | none => none
  else none

/-- Sum of the on-wire sizes of the TLV records of a packet. -/
def tlvBytesLen (ts : List TLV) : Nat := (ts.map fun t => 8 + t.tlv_length).sum

/-- The wire length a packet must declare: magic word plus header fields plus
all TLV records. -/
def packetBytesLen (p : RadarPacket) : Nat := headerLen + tlvBytesLen p.tlvs

/-- A TLV whose fields fit their 32-bit slots, whose declared length matches
its payload, and whose payload is made of bytes. -/
def validTLV (t : TLV) : Prop :=
  t.tlv_type < 4294967296 ∧ t.tlv_length < 4294967296 ∧
    t.payload.length = t.tlv_length ∧ ∀ b ∈ t.payload, b < 256

/-- A packet whose header fields fit their 32-bit slots and reconcile with its
TLV sequence, as required of every packet the extraction path may produce. -/
def validPacket (p : RadarPacket) : Prop :=
  p.header.version < 4294967296 ∧
  p.header.platform < 4294967296 ∧
  p.header.frame_number < 4294967296 ∧
  p.header.time_cpu_cycles < 4294967296 ∧
  p.header.num_detected_obj < 4294967296 ∧
  p.header.subframe_number < 4294967296 ∧
  p.header.num_tlvs = p.tlvs.length ∧
  p.header.total_packet_len = packetBytesLen p ∧
  p.raw_length = p.header.total_packet_len ∧
  p.header.total_packet_len ≤ maxFrameSize ∧
  (∀ t ∈ p.tlvs, validTLV t)

instance (t : TLV) : Decidable (validTLV t) := by unfold validTLV; infer_instance

instance (p : RadarPacket) : Decidable (validPacket p) := by
  unfold validPacket; infer_instance

/-- Wire encoding of the header fields, little-endian, in fixed order. -/
def encodeHeader (h : FrameHeader) : List Nat :=
  u32le h.version ++ u32le h.total_packet_len ++ u32le h.platform ++
    u32le h.frame_number ++ u32le h.time_cpu_cycles ++
    u32le h.num_detected_obj ++ u32le h.num_tlvs ++ u32le h.subframe_number

/-- Wire encoding of one TLV record: 4-byte type, 4-byte length, payload. -/
def encodeTLV (t : TLV) : List Nat := u32le t.tlv_type ++ u32le t.tlv_length ++ t.payload

/-- Wire encoding of a whole frame: magic word, header fields, TLV records. -/
def encodePacket (p : RadarPacket) : List Nat :=
  magicWord ++ encodeHeader p.header ++ (p.tlvs.map encodeTLV).flatten

/-- The magic word occurs in `l` starting at byte offset `i`. -/
def magicAt (l : List Nat) (i : Nat) : Prop := (l.drop i).take 8 = magicWord

instance (l : List Nat) (i : Nat) : Decidable (magicAt l i) :=
  inferInstanceAs (Decidable (_ = _))

/-- Modelled from the spec (§4.1 `try_extract`): scan the buffer for the
magic word; drop garbage before a discovered magic word; with no magic word
found retain at most the last 7 bytes as a candidate partial match; wait
("need more data") while the header or the declared total length is not yet
fully buffered; reject a magic-word occurrence whose header declares a
`total_packet_len` outside [headerLen, maxFrameSize] or whose TLV walk fails,
advancing the scan position one byte past the match; on success slice out the
declared range, return the packet and keep the bytes after it. -/
def tryExtract : List Nat → Option RadarPacket × List Nat
  | [] => (none, [])
  | a :: t =>
    if (a :: t).take 8 = magicWord then
      if (a :: t).length < headerLen then (none, a :: t)
      else
        if readU32 (a :: t) 12 < headerLen ∨ maxFrameSize < readU32 (a :: t) 12 then
          tryExtract t
        else if (a :: t).length < readU32 (a :: t) 12 then (none, a :: t)
        else
          match parseFrame ((a :: t).take (readU32 (a :: t) 12)) with
          | some p => (some p, (a :: t).drop (readU32 (a :: t) 12))
          | none => tryExtract t
    else
      if (a :: t).length ≤ 7 then (none, a :: t)
      else tryExtract t

/-- Fuel-indexed loop repeating `tryExtract` until it yields no packet,
collecting the packets and the final residual buffer.  Each successful
extraction consumes at least `headerLen` bytes, so fuel equal to the buffer
length always suffices. -/
def drainFuel : Nat → List Nat → List RadarPacket × List Nat
  | 0, buf => ([], buf)
  | n + 1, buf =>
    match tryExtract buf with
    | (some p, rest) =>
      match drainFuel n rest with
      | (ps, r) => (p :: ps, r)
    | (none, rest) => ([], rest)

/-- Repeat `tryExtract` on a buffer until no further packet comes out. -/
def drain (buf : List Nat) : List RadarPacket × List Nat := drainFuel buf.length buf

/-- The packets obtained by repeated `try_extract` calls on a buffer. -/
def drainPackets (buf : List Nat) : List RadarPacket := (drain buf).1

/-- Modelled from the spec (§4.1 `feed` / §4.2): thread the scanner's buffer
through a sequence of read chunks — `feed` appends each chunk to the internal
buffer, and `try_extract` is called repeatedly after each feed; the packets
are collected in order. -/
def runChunksFrom : List Nat → List (List Nat) → List RadarPacket
  | _, [] => []
  | buf, c :: cs =>
    match drain (buf ++ c) with
    | (ps, r) => ps ++ runChunksFrom r cs

/-- Feed the chunks in order into a fresh `ByteStreamSync` and collect every
packet yielded by repeated `try_extract` calls. -/
def runChunks (cs : List (List Nat)) : List RadarPacket := runChunksFrom [] cs

/-- Modelled from the spec (§4.2): one physical serial read either returns
some bytes, times out with zero bytes, or fails with a hard transport error. -/
inductive ReadEvent where
  | data : List Nat → ReadEvent
  | timeout : ReadEvent
  | fault : ReadEvent
deriving DecidableEq, Repr

/-- Modelled from the spec (§4.2, §9): outcome of `read_packet` — a packet,
the "no packet" timeout outcome, or a hard transport error, as distinguishable
variants. -/
inductive ReadOutcome where
  | packet : RadarPacket → ReadOutcome
  | noPacket : ReadOutcome
  | fault : ReadOutcome
deriving DecidableEq, Repr

/-- Modelled from the spec (§4.2 `SerialFrameReader.read_packet`): loop —
call `try_extract`; if it yields a packet return it immediately without a
physical read; otherwise perform one physical read: zero bytes (timeout)
returns "no packet", a hard transport error is surfaced as an error, and read
bytes are fed to the scanner before retrying.  The transport is modelled as
the list of results of successive physical reads; an exhausted list reads as
a timeout. -/
def readPacket (buf : List Nat) : List ReadEvent → ReadOutcome × List Nat × List ReadEvent
  | [] =>
    match tryExtract buf with
    | (some p, rest) => (.packet p, rest, [])
    | (none, rest) => (.noPacket, rest, [])
  | e :: evs =>
    match tryExtract buf with
    | (some p, rest) => (.packet p, rest, e :: evs)
    | (none, rest) =>
      match e with
      | .timeout => (.noPacket, rest, evs)
      | .fault => (.fault, rest, evs)
      | .data bs => readPacket (rest ++ bs) evs

/-- A Python-level exception as far as `mmwserial/udp.py` can observe one:
whether it is an `IOError`, and the characters of `str(e)`. -/
structure PyExc where
  ioErr : Bool
  msg : List Char
deriving DecidableEq, Repr

/-- The characters of the literal `"Timeout"` tested by the wrapper. -/
def timeoutChars : List Char := "Timeout".toList

/-- `"Timeout" in str(e)` of `udp.py`: the substring test on the exception
text. -/
def msgHasTimeout (m : List Char) : Prop :=
  ∃ i < m.length, (m.drop i).take 7 = timeoutChars

instance (m : List Char) : Decidable (msgHasTimeout m) := by
  unfold msgHasTimeout; infer_instance

/-- `UDPReader.read_frame` of `mmwserial/udp.py`, embedded from source: call
the native reader; an `IOError` whose text contains `"Timeout"` becomes
`None`, every other exception re-raises, and a returned frame passes through. -/
def udpReadFramePy (r : Except PyExc (List Nat)) : Except PyExc (Option (List Nat)) :=
  match r with
  | .ok bs => .ok (some bs)
  | .error e => if e.ioErr = true ∧ msgHasTimeout e.msg then .ok none else .error e

/-- `UDPReader.read_frames` of `mmwserial/udp.py`, embedded from source: the
body is `return self._reader.read_frames(num_frames)` — the native outcome,
value or exception, is passed through unchanged. -/
def udpReadFramesPy (r : Except PyExc (List (List Nat))) :
    Except PyExc (List (List Nat)) := r

/-- Modelled from the spec (§4.3): one UDP receive either delivers a datagram
or times out. -/
inductive UdpEvent where
  | dgram : List Nat → UdpEvent
  | timeout : UdpEvent
deriving DecidableEq, Repr

/-- Modelled from the spec (§4.3, §7) and the wrapper's expectations: the
native timeout error is an `IOError` whose text contains `"Timeout"`. -/
def timeoutExc : PyExc := ⟨true, "Timeout waiting for frame".toList⟩

/-- Modelled from the spec (§7 SizeMismatch): the error surfacing a datagram
whose length differs from the configured frame size, distinct from a timeout.
The spec's design notes leave the native behaviour here an open question;
this follows the spec's normative sections. -/
def sizeMismatchExc : PyExc := ⟨true, "Datagram size mismatch".toList⟩

/-- Modelled from the spec (§4.3 `read_frame`): one receive with the
configured timeout — a timeout is surfaced as the timeout error (which the
Python wrapper maps to `None`), a well-sized datagram is returned unmodified,
and a size mismatch is surfaced distinctly (see `sizeMismatchExc`).  The
socket is modelled as the list of successive receive results; an exhausted
list reads as a timeout. -/
def nativeReadFrame (frameSize : Nat) :
    List UdpEvent → Except PyExc (List Nat) × List UdpEvent
  | [] => (.error timeoutExc, [])
  | .timeout :: r => (.error timeoutExc, r)
  | .dgram bs :: r =>
    if bs.length = frameSize then (.ok bs, r) else (.error sizeMismatchExc, r)

/-- Modelled from the spec (§4.3 `read_frames`, §7): call `read_frame` up to
`n` times; stop and return the frames collected so far on the first timeout;
propagate any other error. -/
def nativeReadFrames (frameSize : Nat) :
    Nat → List UdpEvent → Except PyExc (List (List Nat)) × List UdpEvent
  | 0, evs => (.ok [], evs)
  | n + 1, evs =>
    match nativeReadFrame frameSize evs with
    | (.ok bs, evs') =>
      match nativeReadFrames frameSize n evs' with
      | (.ok rest, evs'') => (.ok (bs :: rest), evs'')
      | (.error e, evs'') => (.error e, evs'')
    | (.error e, evs') =>
      if e = timeoutExc then (.ok [], evs') else (.error e, evs')

/-- The composite Python-visible `read_frame`: the native receive followed by
the wrapper's exception mapping. -/
def udpReadFrameFull (frameSize : Nat) (evs : List UdpEvent) :
    Except PyExc (Option (List Nat)) × List UdpEvent :=
  match nativeReadFrame frameSize evs with
  | (r, evs') => (udpReadFramePy r, evs')

/-- The composite Python-visible `read_frames`: the native batch read passed
through the wrapper unchanged. -/
def udpReadFramesFull (frameSize : Nat) (n : Nat) (evs : List UdpEvent) :
    Except PyExc (List (List Nat)) × List UdpEvent :=
  match nativeReadFrames frameSize n evs with
  | (r, evs') => (udpReadFramesPy r, evs')

/-! ### Byte-level helper lemmas -/

theorem byteAt_append_left {l r : List Nat} {i : Nat} (h : i < l.length) :
    byteAt (l ++ r) i = byteAt l i := by
  unfold byteAt
  exact List.getD_append l r 0 i h

theorem byteAt_drop (l : List Nat) (i k : Nat) :
    byteAt (l.drop i) k = byteAt l (i + k) := by
  unfold byteAt
  simp [List.getD_eq_getElem?_getD, List.getElem?_drop]

theorem byteAt_take {l : List Nat} {n k : Nat} (h : k < n) :
    byteAt (l.take n) k = byteAt l k := by
  unfold byteAt
  simp [List.getD_eq_getElem?_getD, List.getElem?_take_of_lt h]

theorem readU32_append_left {l r : List Nat} {i : Nat} (h : i + 4 ≤ l.length) :
    readU32 (l ++ r) i = readU32 l i := by
  unfold readU32
  rw [byteAt_append_left (by omega), byteAt_append_left (by omega),
    byteAt_append_left (by omega), byteAt_append_left (by omega)]

theorem readU32_drop (l : List Nat) (i k : Nat) :
    readU32 (l.drop i) k = readU32 l (i + k) := by
  unfold readU32
  rw [byteAt_drop, byteAt_drop, byteAt_drop, byteAt_drop]
  ring_nf

theorem readU32_take {l : List Nat} {n k : Nat} (h : k + 4 ≤ n) :
    readU32 (l.take n) k = readU32 l k := by
  unfold readU32
  rw [byteAt_take (by omega), byteAt_take (by omega), byteAt_take (by omega),
    byteAt_take (by omega)]

theorem u32le_length (n : Nat) : (u32le n).length = 4 := rfl

theorem readU32_u32le_append (n : Nat) (r : List Nat) (h : n < 4294967296) :
    readU32 (u32le n ++ r) 0 = n := by
  unfold readU32 u32le byteAt
  simp only [List.cons_append, List.getD_cons_zero, List.getD_cons_succ]
  omega

theorem u32le_bytes_lt (n : Nat) : ∀ b ∈ u32le n, b < 256 := by
  unfold u32le
  intro b hb
  simp only [List.mem_cons, List.not_mem_nil, or_false] at hb
  rcases hb with h | h | h | h <;> subst h <;> exact Nat.mod_lt _ (by norm_num)

/-! ### Magic word occurrence lemmas -/

theorem take_magic_length {l : List Nat} (h : l.take 8 = magicWord) :
    8 ≤ l.length := by
  have := congrArg List.length h
  simp [magicWord] at this
  omega

theorem magicAt_zero (l : List Nat) : magicAt l 0 ↔ l.take 8 = magicWord := by
  unfold magicAt
  rw [List.drop_zero]

theorem magicAt_cons (a : Nat) (t : List Nat) (i : Nat) :
    magicAt (a :: t) (i + 1) ↔ magicAt t i := by
  unfold magicAt
  rw [List.drop_succ_cons]

theorem not_magicAt_short {l : List Nat} {i : Nat} (h : l.length < i + 8) :
    ¬ magicAt l i := by
  intro hm
  unfold magicAt at hm
  have := congrArg List.length hm
  simp [magicWord] at this
  omega

theorem magicAt_byte {l : List Nat} {i : Nat} (hm : magicAt l i) :
    ∀ k < 8, byteAt l (i + k) = byteAt magicWord k := by
  intro k hk
  unfold magicAt at hm
  have : byteAt ((l.drop i).take 8) k = byteAt magicWord k := by rw [hm]
  rw [byteAt_take hk, byteAt_drop] at this
  exact this

theorem magicAt_append_left {g x : List Nat} {i : Nat} (h : i + 8 ≤ g.length) :
    magicAt (g ++ x) i ↔ magicAt g i := by
  unfold magicAt
  rw [List.drop_append_of_le_length (by omega),
    List.take_append_of_le_length (by simp; omega)]

/-! ### Step characterization of `tryExtract` -/

theorem te_nil : tryExtract [] = (none, []) := rfl

theorem te_keep_short {a : Nat} {t : List Nat}
    (h1 : (a :: t).take 8 ≠ magicWord) (h2 : (a :: t).length ≤ 7) :
    tryExtract (a :: t) = (none, a :: t) := by
  simp only [tryExtract]
  rw [if_neg h1, if_pos h2]

theorem te_adv_nomagic {a : Nat} {t : List Nat}
    (h1 : (a :: t).take 8 ≠ magicWord) (h2 : ¬ (a :: t).length ≤ 7) :
    tryExtract (a :: t) = tryExtract t := by
  simp only [tryExtract]
  rw [if_neg h1, if_neg h2]

theorem te_wait_header {a : Nat} {t : List Nat}
    (h1 : (a :: t).take 8 = magicWord) (h2 : (a :: t).length < headerLen) :
    tryExtract (a :: t) = (none, a :: t) := by
  simp only [tryExtract]
  rw [if_pos h1, if_pos h2]

theorem te_adv_badlen {a : Nat} {t : List Nat}
    (h1 : (a :: t).take 8 = magicWord) (h2 : ¬ (a :: t).length < headerLen)
    (h3 : readU32 (a :: t) 12 < headerLen ∨ maxFrameSize < readU32 (a :: t) 12) :
    tryExtract (a :: t) = tryExtract t := by
  simp only [tryExtract]
  rw [if_pos h1, if_neg h2, if_pos h3]

theorem te_wait_body {a : Nat} {t : List Nat}
    (h1 : (a :: t).take 8 = magicWord) (h2 : ¬ (a :: t).length < headerLen)
    (h3 : ¬ (readU32 (a :: t) 12 < headerLen ∨ maxFrameSize < readU32 (a :: t) 12))
    (h4 : (a :: t).length < readU32 (a :: t) 12) :
    tryExtract (a :: t) = (none, a :: t) := by
  simp only [tryExtract]
  rw [if_pos h1, if_neg h2, if_neg h3, if_pos h4]

theorem te_some {a : Nat} {t : List Nat} {p : RadarPacket}
    (h1 : (a :: t).take 8 = magicWord) (h2 : ¬ (a :: t).length < headerLen)
    (h3 : ¬ (readU32 (a :: t) 12 < headerLen ∨ maxFrameSize < readU32 (a :: t) 12))
    (h4 : ¬ (a :: t).length < readU32 (a :: t) 12)
    (h5 : parseFrame ((a :: t).take (readU32 (a :: t) 12)) = some p) :
    tryExtract (a :: t) = (some p, (a :: t).drop (readU32 (a :: t) 12)) := by
  simp only [tryExtract]
  rw [if_pos h1, if_neg h2, if_neg h3, if_neg h4, h5]

theorem te_adv_badparse {a : Nat} {t : List Nat}
    (h1 : (a :: t).take 8 = magicWord) (h2 : ¬ (a :: t).length < headerLen)
    (h3 : ¬ (readU32 (a :: t) 12 < headerLen ∨ maxFrameSize < readU32 (a :: t) 12))
    (h4 : ¬ (a :: t).length < readU32 (a :: t) 12)
    (h5 : parseFrame ((a :: t).take (readU32 (a :: t) 12)) = none) :
    tryExtract (a :: t) = tryExtract t := by
  simp only [tryExtract]
  rw [if_pos h1, if_neg h2, if_neg h3, if_neg h4, h5]

/-- Feeding more bytes commutes with scanning: on the extended buffer,
`tryExtract` yields the same packet with the extension appended to the
residual, and where it needed more data it behaves as if the retained
residual had been fed the extension. -/
theorem tryExtract_append (l ex : List Nat) :
    tryExtract (l ++ ex) =
      match tryExtract l with
      | (some p, r) => (some p, r ++ ex)
      | (none, r) => tryExtract (r ++ ex) := by
  induction l with
  | nil => simp only [te_nil, List.nil_append]
  | cons a t ih =>
    by_cases h1 : (a :: t).take 8 = magicWord
    · have hlen8 : 8 ≤ (a :: t).length := take_magic_length h1
      have h1x : ((a :: t) ++ ex).take 8 = magicWord := by
        rw [List.take_append_of_le_length hlen8]; exact h1
      by_cases h2 : (a :: t).length < headerLen
      · rw [te_wait_header h1 h2]
      · have h2x : ¬ ((a :: t) ++ ex).length < headerLen := by
          rw [List.length_append]; omega
        have hr32 : readU32 ((a :: t) ++ ex) 12 = readU32 (a :: t) 12 :=
          readU32_append_left (by unfold headerLen at h2; omega)
        by_cases h3 : readU32 (a :: t) 12 < headerLen ∨
            maxFrameSize < readU32 (a :: t) 12
        · have h3x : readU32 ((a :: t) ++ ex) 12 < headerLen ∨
              maxFrameSize < readU32 ((a :: t) ++ ex) 12 := by rw [hr32]; exact h3
          rw [te_adv_badlen h1 h2 h3]
          rw [List.cons_append] at h1x h2x h3x
          rw [List.cons_append, te_adv_badlen h1x h2x h3x]
          exact ih
        · by_cases h4 : (a :: t).length < readU32 (a :: t) 12
          · rw [te_wait_body h1 h2 h3 h4]
          · have h3x : ¬ (readU32 ((a :: t) ++ ex) 12 < headerLen ∨
                maxFrameSize < readU32 ((a :: t) ++ ex) 12) := by rw [hr32]; exact h3
            have h4x : ¬ ((a :: t) ++ ex).length < readU32 ((a :: t) ++ ex) 12 := by
              rw [hr32, List.length_append]; omega
            have htake : ((a :: t) ++ ex).take (readU32 ((a :: t) ++ ex) 12) =
                (a :: t).take (readU32 (a :: t) 12) := by
              rw [hr32, List.take_append_of_le_length (by omega)]
            cases hp : parseFrame ((a :: t).take (readU32 (a :: t) 12)) with
            | some p =>
              have hpx : parseFrame (((a :: t) ++ ex).take
                  (readU32 ((a :: t) ++ ex) 12)) = some p := by rw [htake]; exact hp
              rw [te_some h1 h2 h3 h4 hp]
              rw [List.cons_append] at h1x h2x h3x h4x hpx
              rw [List.cons_append, te_some h1x h2x h3x h4x hpx]
              rw [← List.cons_append, hr32, List.drop_append_of_le_length (by omega)]
            | none =>
              have hpx : parseFrame (((a :: t) ++ ex).take
                  (readU32 ((a :: t) ++ ex) 12)) = none := by rw [htake]; exact hp
              rw [te_adv_badparse h1 h2 h3 h4 hp]
              rw [List.cons_append] at h1x h2x h3x h4x hpx
              rw [List.cons_append, te_adv_badparse h1x h2x h3x h4x hpx]
              exact ih
    · by_cases h2 : (a :: t).length ≤ 7
      · rw [te_keep_short h1 h2]
      · have h1x : ((a :: t) ++ ex).take 8 ≠ magicWord := by
          rw [List.take_append_of_le_length (by omega)]; exact h1
        have h2x : ¬ ((a :: t) ++ ex).length ≤ 7 := by
          rw [List.length_append]; omega
        rw [te_adv_nomagic h1 h2]
        rw [List.cons_append] at h1x h2x
        rw [List.cons_append, te_adv_nomagic h1x h2x]
        exact ih

/-- A successful extraction consumes at least one byte (in fact at least a
whole minimum-size frame). -/
theorem tryExtract_some_shrink :
    ∀ {l : List Nat} {p : RadarPacket} {r : List Nat},
      tryExtract l = (some p, r) → r.length < l.length := by
  intro l
  induction l with
  | nil => intro p r h; rw [te_nil] at h; simp at h
  | cons a t ih =>
    intro p r h
    by_cases h1 : (a :: t).take 8 = magicWord
    · by_cases h2 : (a :: t).length < headerLen
      · rw [te_wait_header h1 h2] at h; simp at h
      · by_cases h3 : readU32 (a :: t) 12 < headerLen ∨
            maxFrameSize < readU32 (a :: t) 12
        · rw [te_adv_badlen h1 h2 h3] at h
          have := ih h; simp only [List.length_cons]; omega
        · by_cases h4 : (a :: t).length < readU32 (a :: t) 12
          · rw [te_wait_body h1 h2 h3 h4] at h; simp at h
          · cases hp : parseFrame ((a :: t).take (readU32 (a :: t) 12)) with
            | some q =>
              rw [te_some h1 h2 h3 h4 hp] at h
              have hr : (a :: t).drop (readU32 (a :: t) 12) = r := by
                simpa using congrArg Prod.snd h
              rw [← hr]
              subst hr
              rw [List.length_drop]
              unfold headerLen at h3
              omega
            | none =>
              rw [te_adv_badparse h1 h2 h3 h4 hp] at h
              have := ih h; simp only [List.length_cons]; omega
    · by_cases h2 : (a :: t).length ≤ 7
      · rw [te_keep_short h1 h2] at h; simp at h
      · rw [te_adv_nomagic h1 h2] at h
        have := ih h; simp only [List.length_cons]; omega

/-- The residual a failed extraction retains is a fixed point: calling
`try_extract` on it again still needs more data and keeps it unchanged. -/
theorem tryExtract_none_fix :
    ∀ {l r : List Nat}, tryExtract l = (none, r) → tryExtract r = (none, r) := by
  intro l
  induction l with
  | nil => intro r h; rw [te_nil] at h
           have : r = [] := (by simpa using congrArg Prod.snd h : [] = r).symm
           subst this; exact te_nil
  | cons a t ih =>
    intro r h
    by_cases h1 : (a :: t).take 8 = magicWord
    · by_cases h2 : (a :: t).length < headerLen
      · rw [te_wait_header h1 h2] at h
        have : r = a :: t := (by simpa using congrArg Prod.snd h : a :: t = r).symm
        subst this; exact te_wait_header h1 h2
      · by_cases h3 : readU32 (a :: t) 12 < headerLen ∨
            maxFrameSize < readU32 (a :: t) 12
        · rw [te_adv_badlen h1 h2 h3] at h; exact ih h
        · by_cases h4 : (a :: t).length < readU32 (a :: t) 12
          · rw [te_wait_body h1 h2 h3 h4] at h
            have : r = a :: t := (by simpa using congrArg Prod.snd h : a :: t = r).symm
            subst this; exact te_wait_body h1 h2 h3 h4
          · cases hp : parseFrame ((a :: t).take (readU32 (a :: t) 12)) with
            | some q =>
              rw [te_some h1 h2 h3 h4 hp] at h
              have := congrArg Prod.fst h; simp at this
            | none =>
              rw [te_adv_badparse h1 h2 h3 h4 hp] at h; exact ih h
    · by_cases h2 : (a :: t).length ≤ 7
      · rw [te_keep_short h1 h2] at h
        have : r = a :: t := (by simpa using congrArg Prod.snd h : a :: t = r).symm
        subst this; exact te_keep_short h1 h2
      · rw [te_adv_nomagic h1 h2] at h; exact ih h

/-! ### The drain loop -/

theorem drainFuel_congr : ∀ (n m : Nat) (l : List Nat),
    l.length ≤ n → l.length ≤ m → drainFuel n l = drainFuel m l := by
  intro n
  induction n with
  | zero =>
    intro m l h1 _
    have : l = [] := List.length_eq_zero.mp (Nat.le_zero.mp h1)
    subst this
    cases m with
    | zero => rfl
    | succ m => simp [drainFuel, te_nil]
  | succ n ih =>
    intro m l h1 h2
    cases m with
    | zero =>
      have : l = [] := List.length_eq_zero.mp (Nat.le_zero.mp h2)
      subst this; simp [drainFuel, te_nil]
    | succ m =>
      simp only [drainFuel]
      rcases hte : tryExtract l with ⟨op, rest⟩
      cases op with
      | some p =>
        have hlt := tryExtract_some_shrink hte
        simp only [ih m rest (by omega) (by omega)]
      | none => rfl

theorem drain_some {l : List Nat} {p : RadarPacket} {r : List Nat}
    (h : tryExtract l = (some p, r)) :
    drain l = (p :: (drain r).1, (drain r).2) := by
  have hs := tryExtract_some_shrink h
  unfold drain
  have hk : l.length = (l.length - 1) + 1 := by omega
  rw [hk]
  simp only [drainFuel]
  rw [h]
  simp only [drainFuel_congr (l.length - 1) r.length r (by omega) le_rfl]

theorem drain_none {l r : List Nat} (h : tryExtract l = (none, r)) :
    drain l = ([], r) := by
  unfold drain
  cases hl : l.length with
  | zero =>
    have : l = [] := List.length_eq_zero.mp hl
    subst this
    rw [te_nil] at h
    have : [] = r := by simpa using congrArg Prod.snd h
    subst this; rfl
  | succ k => simp only [drainFuel]; rw [h]

theorem drain_congr {a b : List Nat} (h : tryExtract a = tryExtract b) :
    drain a = drain b := by
  rcases hte : tryExtract a with ⟨op, r⟩
  cases op with
  | some p => rw [drain_some hte, drain_some (h.symm.trans hte)]
  | none => rw [drain_none hte, drain_none (h.symm.trans hte)]

theorem drain_append_aux : ∀ (n : Nat) (l ex : List Nat), l.length ≤ n →
    drain (l ++ ex) = ((drain l).1 ++ (drain ((drain l).2 ++ ex)).1,
                       (drain ((drain l).2 ++ ex)).2) := by
  intro n
  induction n with
  | zero =>
    intro l ex h
    have : l = [] := List.length_eq_zero.mp (Nat.le_zero.mp h)
    subst this
    simp [show drain ([] : List Nat) = ([], []) from rfl]
  | succ n ih =>
    intro l ex h
    rcases hte : tryExtract l with ⟨op, r⟩
    cases op with
    | none =>
      have h1 := drain_none hte
      have h2 : tryExtract (l ++ ex) = tryExtract (r ++ ex) := by
        rw [tryExtract_append, hte]
      rw [h1, drain_congr h2]
      simp
    | some p =>
      have hs := tryExtract_some_shrink hte
      have h1 := drain_some hte
      have h2 : tryExtract (l ++ ex) = (some p, r ++ ex) := by
        rw [tryExtract_append, hte]
      rw [drain_some h2, h1, ih r ex (by omega)]
      simp

theorem drain_append (l ex : List Nat) :
    drain (l ++ ex) = ((drain l).1 ++ (drain ((drain l).2 ++ ex)).1,
                       (drain ((drain l).2 ++ ex)).2) :=
  drain_append_aux l.length l ex le_rfl

theorem drain_resid_fix_aux : ∀ (n : Nat) (l : List Nat), l.length ≤ n →
    tryExtract (drain l).2 = (none, (drain l).2) := by
  intro n
  induction n with
  | zero =>
    intro l h
    have : l = [] := List.length_eq_zero.mp (Nat.le_zero.mp h)
    subst this
    exact te_nil
  | succ n ih =>
    intro l h
    rcases hte : tryExtract l with ⟨op, r⟩
    cases op with
    | none => rw [drain_none hte]; exact tryExtract_none_fix hte
    | some p =>
      have hs := tryExtract_some_shrink hte
      rw [drain_some hte]
      exact ih r (by omega)

theorem drain_resid_fix (l : List Nat) :
    tryExtract (drain l).2 = (none, (drain l).2) :=
  drain_resid_fix_aux l.length l le_rfl

theorem runChunksFrom_eq {r : List Nat} (hr : tryExtract r = (none, r)) :
    ∀ cs : List (List Nat), runChunksFrom r cs = (drain (r ++ cs.flatten)).1 := by
  intro cs
  induction cs generalizing r with
  | nil =>
    simp only [runChunksFrom, List.flatten_nil, List.append_nil]
    rw [drain_none hr]
  | cons c cs ih =>
    have hfix := drain_resid_fix (r ++ c)
    simp only [runChunksFrom]
    rcases hd : drain (r ++ c) with ⟨ps, rr⟩
    rw [hd] at hfix
    simp only at hfix ⊢
    rw [ih hfix]
    have hda := drain_append (r ++ c) cs.flatten
    rw [hd] at hda
    simp only at hda
    rw [List.flatten_cons, ← List.append_assoc, hda]

theorem runChunks_eq (cs : List (List Nat)) :
    runChunks cs = drainPackets cs.flatten := by
  unfold runChunks drainPackets
  rw [runChunksFrom_eq te_nil cs, List.nil_append]

/-! ### Encoding and the parse round trip -/

theorem byteAt_append_right {l r : List Nat} {i : Nat} (h : l.length ≤ i) :
    byteAt (l ++ r) i = byteAt r (i - l.length) := by
  unfold byteAt
  exact List.getD_append_right l r 0 i h

theorem encodeHeader_length (h : FrameHeader) : (encodeHeader h).length = 32 := by
  simp [encodeHeader, u32le]

theorem encodeTLV_length {t : TLV} (h : t.payload.length = t.tlv_length) :
    (encodeTLV t).length = 8 + t.tlv_length := by
  simp [encodeTLV, u32le]
  omega

theorem encodeTLVs_length : ∀ (ts : List TLV), (∀ t ∈ ts, validTLV t) →
    ((ts.map encodeTLV).flatten).length = tlvBytesLen ts := by
  intro ts
  induction ts with
  | nil => intro _; rfl
  | cons t ts ih =>
    intro hv
    have ht := hv t (by simp)
    simp only [List.map_cons, List.flatten_cons, List.length_append,
      encodeTLV_length ht.2.2.1, tlvBytesLen, List.map_cons, List.sum_cons]
    have := ih (fun u hu => hv u (by simp [hu]))
    unfold tlvBytesLen at this
    omega

theorem encodePacket_length {p : RadarPacket} (hv : validPacket p) :
    (encodePacket p).length = p.header.total_packet_len := by
  obtain ⟨_, _, _, _, _, _, _, hlen, _, _, htlv⟩ := hv
  simp only [encodePacket, List.length_append, encodeHeader_length,
    encodeTLVs_length p.tlvs htlv]
  rw [hlen]
  simp [packetBytesLen, headerLen, magicWord]

theorem encodePacket_take8 (p : RadarPacket) :
    (encodePacket p).take 8 = magicWord := by
  unfold encodePacket
  rw [List.append_assoc]
  rw [List.take_append_of_le_length (by simp [magicWord])]
  rfl

theorem parseHeader_encode (h : FrameHeader) (r : List Nat)
    (h1 : h.version < 4294967296) (h2 : h.total_packet_len < 4294967296)
    (h3 : h.platform < 4294967296) (h4 : h.frame_number < 4294967296)
    (h5 : h.time_cpu_cycles < 4294967296) (h6 : h.num_detected_obj < 4294967296)
    (h7 : h.num_tlvs < 4294967296) (h8 : h.subframe_number < 4294967296) :
    parseHeader (magicWord ++ encodeHeader h ++ r) = h := by
  obtain ⟨v, tl, pf, fn, tc, nd, nt, sf⟩ := h
  simp only at h1 h2 h3 h4 h5 h6 h7 h8
  unfold parseHeader
  simp only [FrameHeader.mk.injEq]
  refine ⟨?_, ?_, ?_, ?_, ?_, ?_, ?_, ?_⟩ <;>
    (simp only [magicWord, encodeHeader, u32le, readU32, byteAt,
      List.cons_append, List.nil_append, List.getD_cons_succ,
      List.getD_cons_zero]; omega)

theorem readU32_encode_total {p : RadarPacket} (hv : validPacket p) :
    readU32 (encodePacket p) 12 = p.header.total_packet_len := by
  obtain ⟨h1, h3, h4, h5, h6, h8, h7, hlen, _, hmax, _⟩ := hv
  have h2 : p.header.total_packet_len < 4294967296 := by
    unfold maxFrameSize at hmax; omega
  have h7' : p.header.num_tlvs < 4294967296 := by
    rw [h7]
    calc p.tlvs.length ≤ tlvBytesLen p.tlvs := by
          unfold tlvBytesLen
          induction p.tlvs with
          | nil => simp
          | cons a l ihl => simp at ihl ⊢; omega
      _ ≤ p.header.total_packet_len := by
          rw [hlen]; unfold packetBytesLen; omega
      _ < 4294967296 := h2
  have := parseHeader_encode p.header ((p.tlvs.map encodeTLV).flatten)
    h1 h2 h3 h4 h5 h6 h7' h8
  have h12 := congrArg FrameHeader.total_packet_len this
  unfold parseHeader at h12
  simp only at h12
  rw [← h12, encodePacket]

theorem num_tlvs_lt {p : RadarPacket} (hv : validPacket p) :
    p.header.num_tlvs < 4294967296 := by
  obtain ⟨_, _, _, _, _, _, h7, hlen, _, hmax, _⟩ := hv
  rw [h7]
  unfold maxFrameSize at hmax
  calc p.tlvs.length ≤ tlvBytesLen p.tlvs := by
        unfold tlvBytesLen
        induction p.tlvs with
        | nil => simp
        | cons a l ihl => simp at ihl ⊢; omega
    _ ≤ p.header.total_packet_len := by
        rw [hlen]; unfold packetBytesLen; omega
    _ < 4294967296 := by omega

theorem parseTLVs_encode : ∀ (ts : List TLV), (∀ t ∈ ts, validTLV t) →
    parseTLVs ts.length ((ts.map encodeTLV).flatten) = some ts := by
  intro ts
  induction ts with
  | nil => intro _; rfl
  | cons t ts ih =>
    intro hv
    obtain ⟨hty, hlen, hpay, _⟩ := hv t (by simp)
    have hrest := ih (fun u hu => hv u (by simp [hu]))
    simp only [List.map_cons, List.flatten_cons, List.length_cons]
    rw [show encodeTLV t = u32le t.tlv_type ++ u32le t.tlv_length ++ t.payload
      from rfl]
    have hr4 : readU32 ((u32le t.tlv_type ++ u32le t.tlv_length ++ t.payload) ++
        (ts.map encodeTLV).flatten) 4 = t.tlv_length := by
      have : readU32 ((u32le t.tlv_type ++ u32le t.tlv_length ++ t.payload) ++
          (ts.map encodeTLV).flatten) 4 =
          t.tlv_length % 256 + 256 * (t.tlv_length / 256 % 256) +
            65536 * (t.tlv_length / 65536 % 256) +
            16777216 * (t.tlv_length / 16777216 % 256) := rfl
      rw [this]; omega
    have hr0 : readU32 ((u32le t.tlv_type ++ u32le t.tlv_length ++ t.payload) ++
        (ts.map encodeTLV).flatten) 0 = t.tlv_type := by
      have : readU32 ((u32le t.tlv_type ++ u32le t.tlv_length ++ t.payload) ++
          (ts.map encodeTLV).flatten) 0 =
          t.tlv_type % 256 + 256 * (t.tlv_type / 256 % 256) +
            65536 * (t.tlv_type / 65536 % 256) +
            16777216 * (t.tlv_type / 16777216 % 256) := rfl
      rw [this]; omega
    have hdrop8 : ((u32le t.tlv_type ++ u32le t.tlv_length ++ t.payload) ++
        (ts.map encodeTLV).flatten).drop 8 =
        t.payload ++ (ts.map encodeTLV).flatten := rfl
    have hL : ((u32le t.tlv_type ++ u32le t.tlv_length ++ t.payload) ++
        (ts.map encodeTLV).flatten).length =
        8 + t.tlv_length + ((ts.map encodeTLV).flatten).length := by
      simp [u32le, hpay]
      omega
    have h8 : 8 ≤ ((u32le t.tlv_type ++ u32le t.tlv_length ++ t.payload) ++
        (ts.map encodeTLV).flatten).length := by rw [hL]; omega
    have h48 : 8 + t.tlv_length ≤ ((u32le t.tlv_type ++ u32le t.tlv_length ++
        t.payload) ++ (ts.map encodeTLV).flatten).length := by rw [hL]; omega
    have hdrop : ((u32le t.tlv_type ++ u32le t.tlv_length ++ t.payload) ++
        (ts.map encodeTLV).flatten).drop (8 + t.tlv_length) =
        (ts.map encodeTLV).flatten := by
      rw [← List.drop_drop, hdrop8, List.drop_left' hpay]
    have htake : (((u32le t.tlv_type ++ u32le t.tlv_length ++ t.payload) ++
        (ts.map encodeTLV).flatten).drop 8).take t.tlv_length = t.payload := by
      rw [hdrop8, List.take_left' hpay]
    simp only [parseTLVs]
    rw [hr4, if_pos h8, if_pos h48, hdrop, hrest, hr0, htake]

theorem parseFrame_encode {p : RadarPacket} (hv : validPacket p) :
    parseFrame (encodePacket p) = some p := by
  have hv' := hv
  obtain ⟨h1, h3, h4, h5, h6, h8, h7, hlen, hraw, hmax, htlv⟩ := hv'
  have h2 : p.header.total_packet_len < 4294967296 := by
    unfold maxFrameSize at hmax; omega
  have hlentot := encodePacket_length hv
  have hhdr : parseHeader (encodePacket p) = p.header := by
    unfold encodePacket
    exact parseHeader_encode p.header _ h1 h2 h3 h4 h5 h6 (num_tlvs_lt hv) h8
  unfold parseFrame
  rw [if_pos ?hc]
  case hc =>
    refine ⟨encodePacket_take8 p, ?_, ?_⟩
    · rw [hlentot, hlen]; unfold packetBytesLen headerLen; omega
    · rw [readU32_encode_total hv, hlentot]
  have hdrop40 : (encodePacket p).drop headerLen = (p.tlvs.map encodeTLV).flatten := by
    unfold encodePacket
    exact List.drop_left' (by simp [magicWord, encodeHeader_length, headerLen])
  rw [hhdr, hdrop40, h7, parseTLVs_encode p.tlvs htlv]
  obtain ⟨hd, tlvs, raw⟩ := p
  simp only at hraw ⊢
  rw [hraw]

/-! ### Extraction through garbage -/

theorem te_some' {l : List Nat} {p : RadarPacket}
    (h0 : l ≠ [])
    (h1 : l.take 8 = magicWord) (h2 : ¬ l.length < headerLen)
    (h3 : ¬ (readU32 l 12 < headerLen ∨ maxFrameSize < readU32 l 12))
    (h4 : ¬ l.length < readU32 l 12)
    (h5 : parseFrame (l.take (readU32 l 12)) = some p) :
    tryExtract l = (some p, l.drop (readU32 l 12)) := by
  cases l with
  | nil => exact absurd rfl h0
  | cons a t => exact te_some h1 h2 h3 h4 h5

theorem total_ge_headerLen {p : RadarPacket} (hv : validPacket p) :
    headerLen ≤ p.header.total_packet_len := by
  obtain ⟨-, -, -, -, -, -, -, hlen, -, -, -⟩ := id hv
  rw [hlen]; unfold packetBytesLen; omega

/-- Scanning a buffer that consists of magic-free garbage, then an encoded
valid frame, then anything, skips the garbage and extracts exactly that
frame, leaving the continuation in the buffer. -/
theorem tryExtract_garbage_frame :
    ∀ (g : List Nat) {p : RadarPacket} (s : List Nat), validPacket p →
      (∀ i < g.length, ¬ magicAt (g ++ encodePacket p ++ s) i) →
      tryExtract (g ++ encodePacket p ++ s) = (some p, s) := by
  intro g
  induction g with
  | nil =>
    intro p s hv hg
    rw [List.nil_append]
    have he_len := encodePacket_length hv
    have h40 := total_ge_headerLen hv
    obtain ⟨-, -, -, -, -, -, -, -, -, hmax, -⟩ := id hv
    have hne : encodePacket p ++ s ≠ [] := by
      intro hc
      rcases List.append_eq_nil.mp hc with ⟨h1, -⟩
      rw [h1] at he_len
      simp at he_len
      unfold headerLen at h40
      omega
    have hlen_app : (encodePacket p ++ s).length =
        p.header.total_packet_len + s.length := by
      rw [List.length_append, he_len]
    have ht8 : (encodePacket p ++ s).take 8 = magicWord := by
      rw [List.take_append_of_le_length
        (by rw [he_len]; unfold headerLen at h40; omega)]
      exact encodePacket_take8 p
    have hr12 : readU32 (encodePacket p ++ s) 12 = p.header.total_packet_len := by
      rw [readU32_append_left (by rw [he_len]; unfold headerLen at h40; omega)]
      exact readU32_encode_total hv
    have htk : (encodePacket p ++ s).take (readU32 (encodePacket p ++ s) 12) =
        encodePacket p := by
      rw [hr12]; exact List.take_left' he_len
    have hdp : (encodePacket p ++ s).drop (readU32 (encodePacket p ++ s) 12) =
        s := by
      rw [hr12]; exact List.drop_left' he_len
    have hmain := te_some' hne ht8
      (by rw [hlen_app]; unfold headerLen at h40 ⊢; omega)
      (by rw [hr12]; push_neg; exact ⟨h40, hmax⟩)
      (by rw [hr12, hlen_app]; omega)
      (by rw [htk]; exact parseFrame_encode hv)
    rw [hmain, hdp]
  | cons a g ihg =>
    intro p s hv hg
    have he_len := encodePacket_length hv
    have h40 := total_ge_headerLen hv
    have hlist : (a :: g) ++ encodePacket p ++ s =
        a :: (g ++ encodePacket p ++ s) := by simp
    have h0 : ¬ magicAt ((a :: g) ++ encodePacket p ++ s) 0 := hg 0 (by simp)
    rw [hlist] at h0
    rw [magicAt_zero] at h0
    have h7 : ¬ (a :: (g ++ encodePacket p ++ s)).length ≤ 7 := by
      simp only [List.length_cons, List.length_append]
      rw [he_len]
      unfold headerLen at h40
      omega
    rw [hlist, te_adv_nomagic h0 h7]
    exact ihg s hv (fun i hi => by
      have := hg (i + 1) (by simp only [List.length_cons]; omega)
      rw [hlist, magicAt_cons] at this
      exact this)

/-- Magic-free garbage never yields a packet. -/
theorem tryExtract_noMagic : ∀ {g : List Nat}, (∀ i, ¬ magicAt g i) →
    (tryExtract g).1 = none := by
  intro g
  induction g with
  | nil => intro _; rfl
  | cons a t ih =>
    intro hg
    have h0 : (a :: t).take 8 ≠ magicWord := by
      have := hg 0; rwa [magicAt_zero] at this
    by_cases h2 : (a :: t).length ≤ 7
    · rw [te_keep_short h0 h2]
    · rw [te_adv_nomagic h0 h2]
      exact ih (fun i => by have := hg (i + 1); rwa [magicAt_cons] at this)

/-- A byte stream made of well-formed frames interleaved with garbage, where
no byte position inside a garbage segment begins a magic-word match in the
stream (frame interiors are unconstrained).  This is the hypothesis under
which chunked extraction recovers exactly the frames. -/
inductive GoodStream : List Nat → List RadarPacket → Prop where
  | nil (g : List Nat) (hg : ∀ i, ¬ magicAt g i) : GoodStream g []
  | cons (g : List Nat) (p : RadarPacket) (s : List Nat) (ps : List RadarPacket)
      (hp : validPacket p)
      (hg : ∀ i < g.length, ¬ magicAt (g ++ encodePacket p ++ s) i)
      (ht : GoodStream s ps) : GoodStream (g ++ encodePacket p ++ s) (p :: ps)

theorem drain_goodStream {s : List Nat} {ps : List RadarPacket}
    (h : GoodStream s ps) : (drain s).1 = ps := by
  induction h with
  | nil g hg =>
    rcases hte : tryExtract g with ⟨op, r⟩
    have h1 := tryExtract_noMagic hg
    rw [hte] at h1
    simp only at h1
    subst h1
    rw [drain_none hte]
  | cons g p s ps hp hg ht ih =>
    rw [drain_some (tryExtract_garbage_frame g s hp hg)]
    simp only
    rw [ih]

/-! ### Invariants of every extracted packet -/

theorem parseTLVs_some_facts : ∀ (n : Nat) (bytes : List Nat) (ts : List TLV),
    parseTLVs n bytes = some ts →
    ts.length = n ∧ tlvBytesLen ts = bytes.length := by
  intro n
  induction n with
  | zero =>
    intro bytes ts h
    simp only [parseTLVs] at h
    by_cases hb : bytes = []
    · rw [if_pos hb] at h
      injection h with h
      subst h
      simp [tlvBytesLen, hb]
    · rw [if_neg hb] at h; cases h
  | succ n ih =>
    intro bytes ts h
    simp only [parseTLVs] at h
    by_cases h8 : 8 ≤ bytes.length
    · rw [if_pos h8] at h
      by_cases h48 : 8 + readU32 bytes 4 ≤ bytes.length
      · rw [if_pos h48] at h
        rcases hrec : parseTLVs n (bytes.drop (8 + readU32 bytes 4)) with - | ts'
        · rw [hrec] at h; cases h
        · rw [hrec] at h
          injection h with h
          obtain ⟨hl, hs⟩ := ih _ _ hrec
          subst h
          refine ⟨by simp [hl], ?_⟩
          unfold tlvBytesLen at hs ⊢
          simp only [List.map_cons, List.sum_cons]
          have hdl : (bytes.drop (8 + readU32 bytes 4)).length =
              bytes.length - (8 + readU32 bytes 4) := List.length_drop _ _
          rw [hdl] at hs
          omega
      · rw [if_neg h48] at h; cases h
    · rw [if_neg h8] at h; cases h

theorem parseFrame_some_facts {f : List Nat} {p : RadarPacket}
    (h : parseFrame f = some p) :
    p.header.total_packet_len = f.length ∧
    p.header.total_packet_len = packetBytesLen p ∧
    p.header.num_tlvs = p.tlvs.length := by
  unfold parseFrame at h
  by_cases hc : f.take 8 = magicWord ∧ headerLen ≤ f.length ∧
      readU32 f 12 = f.length
  · rw [if_pos hc] at h
    rcases hts : parseTLVs (parseHeader f).num_tlvs (f.drop headerLen)
      with - | ts
    · rw [hts] at h; cases h
    · rw [hts] at h
      injection h with h
      obtain ⟨hl, hs⟩ := parseTLVs_some_facts _ _ _ hts
      subst h
      have htot : (parseHeader f).total_packet_len = f.length := hc.2.2
      refine ⟨htot, ?_, hl.symm⟩
      show (parseHeader f).total_packet_len = packetBytesLen ⟨parseHeader f, ts, _⟩
      unfold packetBytesLen
      simp only
      have hdl : (f.drop headerLen).length = f.length - headerLen :=
        List.length_drop _ _
      rw [hdl] at hs
      unfold tlvBytesLen at hs
      unfold tlvBytesLen
      have h40 := hc.2.1
      omega
  · rw [if_neg hc] at h; cases h

/-- Every packet `tryExtract` ever returns declares a total length inside
[headerLen, maxFrameSize] that reconciles exactly with its header size, magic
word and TLV record sizes. -/
theorem tryExtract_some_inv :
    ∀ {buf : List Nat} {p : RadarPacket} {rest : List Nat},
      tryExtract buf = (some p, rest) →
      headerLen ≤ p.header.total_packet_len ∧
      p.header.total_packet_len ≤ maxFrameSize ∧
      p.header.total_packet_len = packetBytesLen p ∧
      p.header.num_tlvs = p.tlvs.length := by
  intro buf
  induction buf with
  | nil => intro p rest h; rw [te_nil] at h; simp at h
  | cons a t ih =>
    intro p rest h
    by_cases h1 : (a :: t).take 8 = magicWord
    · by_cases h2 : (a :: t).length < headerLen
      · rw [te_wait_header h1 h2] at h; simp at h
      · by_cases h3 : readU32 (a :: t) 12 < headerLen ∨
            maxFrameSize < readU32 (a :: t) 12
        · rw [te_adv_badlen h1 h2 h3] at h; exact ih h
        · by_cases h4 : (a :: t).length < readU32 (a :: t) 12
          · rw [te_wait_body h1 h2 h3 h4] at h; simp at h
          · rcases hp : parseFrame ((a :: t).take (readU32 (a :: t) 12))
              with - | q
            · rw [te_adv_badparse h1 h2 h3 h4 hp] at h; exact ih h
            · rw [te_some h1 h2 h3 h4 hp] at h
              have hq : q = p := by simpa using congrArg Prod.fst h
              subst hq
              obtain ⟨htot, hrec, hnum⟩ := parseFrame_some_facts hp
              have hlt : ((a :: t).take (readU32 (a :: t) 12)).length =
                  readU32 (a :: t) 12 := by
                rw [List.length_take]
                omega
              rw [hlt] at htot
              push_neg at h3
              exact ⟨htot ▸ h3.1, htot ▸ h3.2, hrec, hnum⟩
    · by_cases h2 : (a :: t).length ≤ 7
      · rw [te_keep_short h1 h2] at h; simp at h
      · rw [te_adv_nomagic h1 h2] at h; exact ih h

/-! ### Rejection fixtures: impossible declared length, bad TLV walk -/

theorem te_adv_badlen' {l : List Nat} (h0 : l ≠ [])
    (h1 : l.take 8 = magicWord) (h2 : ¬ l.length < headerLen)
    (h3 : readU32 l 12 < headerLen ∨ maxFrameSize < readU32 l 12) :
    tryExtract l = tryExtract (l.drop 1) := by
  cases l with
  | nil => exact absurd rfl h0
  | cons a t => exact te_adv_badlen h1 h2 h3

theorem te_adv_badparse' {l : List Nat} (h0 : l ≠ [])
    (h1 : l.take 8 = magicWord) (h2 : ¬ l.length < headerLen)
    (h3 : ¬ (readU32 l 12 < headerLen ∨ maxFrameSize < readU32 l 12))
    (h4 : ¬ l.length < readU32 l 12)
    (h5 : parseFrame (l.take (readU32 l 12)) = none) :
    tryExtract l = tryExtract (l.drop 1) := by
  cases l with
  | nil => exact absurd rfl h0
  | cons a t => exact te_adv_badparse h1 h2 h3 h4 h5

/-- A 40-byte region that starts with the magic word and whose header
declares the total packet length `v`; every other header field is zero. -/
def badLenFrame (v : Nat) : List Nat :=
  magicWord ++ u32le 0 ++ u32le v ++ u32le 0 ++ u32le 0 ++ u32le 0 ++
    u32le 0 ++ u32le 0 ++ u32le 0

theorem badLenFrame_length (v : Nat) : (badLenFrame v).length = 40 := by
  simp [badLenFrame, u32le, magicWord]

set_option maxHeartbeats 2000000 in
/-- No byte position of the tail of a `badLenFrame` begins a magic-word
match, whatever follows it. -/
theorem badLenFrame_tail_noMagic (v : Nat) (x : List Nat) :
    ∀ i, i < 39 → ¬ magicAt ((badLenFrame v).drop 1 ++ x) i := by
  intro i hi hm
  have hb0 := magicAt_byte hm 0 (by omega)
  have hb4 := magicAt_byte hm 4 (by omega)
  rw [Nat.add_zero] at hb0
  interval_cases i <;>
    first
    | exact absurd (show (0 : Nat) = 1 from hb0) (by decide)
    | exact absurd (show (2 : Nat) = 1 from hb0) (by decide)
    | exact absurd (show (3 : Nat) = 1 from hb0) (by decide)
    | exact absurd (show (4 : Nat) = 1 from hb0) (by decide)
    | exact absurd (show (5 : Nat) = 1 from hb0) (by decide)
    | exact absurd (show (6 : Nat) = 1 from hb0) (by decide)
    | exact absurd (show (7 : Nat) = 1 from hb0) (by decide)
    | exact absurd (show (8 : Nat) = 1 from hb0) (by decide)
    | exact absurd (show (0 : Nat) = 5 from hb4) (by decide)

/-- Scanning a buffer that begins with a frame declaring an out-of-range
total length rejects the match and advances exactly one byte past it. -/
theorem badLenFrame_adv {v : Nat} (x : List Nat) (hv32 : v < 4294967296)
    (hbad : v < headerLen ∨ maxFrameSize < v) :
    tryExtract (badLenFrame v ++ x) = tryExtract ((badLenFrame v).drop 1 ++ x) := by
  have hr : readU32 (badLenFrame v ++ x) 12 = v := by
    have : readU32 (badLenFrame v ++ x) 12 =
        v % 256 + 256 * (v / 256 % 256) + 65536 * (v / 65536 % 256) +
          16777216 * (v / 16777216 % 256) := rfl
    rw [this]; omega
  have hlen : (badLenFrame v ++ x).length = 40 + x.length := by
    rw [List.length_append, badLenFrame_length]
  have h0 : badLenFrame v ++ x ≠ [] := by
    intro hc
    rw [hc] at hlen
    simp only [List.length_nil] at hlen
    omega
  have h1 : (badLenFrame v ++ x).take 8 = magicWord := by
    rw [List.take_append_of_le_length (by rw [badLenFrame_length]; omega)]
    rfl
  have h2 : ¬ (badLenFrame v ++ x).length < headerLen := by
    rw [hlen]; unfold headerLen; omega
  have h3 : readU32 (badLenFrame v ++ x) 12 < headerLen ∨
      maxFrameSize < readU32 (badLenFrame v ++ x) 12 := by
    rw [hr]; exact hbad
  rw [te_adv_badlen' h0 h1 h2 h3,
    List.drop_append_of_le_length (by rw [badLenFrame_length]; omega)]

/-- A full 48-byte frame whose header is plausible (total length 48, one
TLV) but whose single TLV declares a length of 1000 bytes, extending far past
the declared total: the TLV walk must reject it. -/
def badTlvFrame : List Nat :=
  magicWord ++ u32le 0 ++ u32le 48 ++ u32le 0 ++ u32le 0 ++ u32le 0 ++
    u32le 0 ++ u32le 1 ++ u32le 0 ++ u32le 7 ++ u32le 1000

theorem badTlvFrame_length : badTlvFrame.length = 48 := by
  simp [badTlvFrame, u32le, magicWord]

set_option maxHeartbeats 2000000 in
/-- No byte position of the tail of `badTlvFrame` begins a magic-word match,
whatever follows it. -/
theorem badTlvFrame_tail_noMagic (x : List Nat) :
    ∀ i, i < 47 → ¬ magicAt (badTlvFrame.drop 1 ++ x) i := by
  intro i hi hm
  have hb0 := magicAt_byte hm 0 (by omega)
  have hb1 := magicAt_byte hm 1 (by omega)
  rw [Nat.add_zero] at hb0
  interval_cases i <;>
    first
    | exact absurd (show (0 : Nat) = 1 from hb0) (by decide)
    | exact absurd (show (2 : Nat) = 1 from hb0) (by decide)
    | exact absurd (show (3 : Nat) = 1 from hb0) (by decide)
    | exact absurd (show (4 : Nat) = 1 from hb0) (by decide)
    | exact absurd (show (5 : Nat) = 1 from hb0) (by decide)
    | exact absurd (show (6 : Nat) = 1 from hb0) (by decide)
    | exact absurd (show (7 : Nat) = 1 from hb0) (by decide)
    | exact absurd (show (8 : Nat) = 1 from hb0) (by decide)
    | exact absurd (show (48 : Nat) = 1 from hb0) (by decide)
    | exact absurd (show (232 : Nat) = 1 from hb0) (by decide)
    | exact absurd (show (0 : Nat) = 2 from hb1) (by decide)

/-- Scanning a buffer that begins with `badTlvFrame` fails the TLV walk for
that frame as a whole and advances exactly one byte past its magic word. -/
theorem badTlvFrame_adv (x : List Nat) :
    tryExtract (badTlvFrame ++ x) = tryExtract (badTlvFrame.drop 1 ++ x) := by
  have hr : readU32 (badTlvFrame ++ x) 12 = 48 := rfl
  have hlen : (badTlvFrame ++ x).length = 48 + x.length := by
    rw [List.length_append, badTlvFrame_length]
  have h0 : badTlvFrame ++ x ≠ [] := by
    intro hc
    rw [hc] at hlen
    simp only [List.length_nil] at hlen
    omega
  have h1 : (badTlvFrame ++ x).take 8 = magicWord := by
    rw [List.take_append_of_le_length (by rw [badTlvFrame_length]; omega)]
    rfl
  have h2 : ¬ (badTlvFrame ++ x).length < headerLen := by
    rw [hlen]; unfold headerLen; omega
  have h3 : ¬ (readU32 (badTlvFrame ++ x) 12 < headerLen ∨
      maxFrameSize < readU32 (badTlvFrame ++ x) 12) := by
    rw [hr]; unfold headerLen maxFrameSize; omega
  have h4 : ¬ (badTlvFrame ++ x).length < readU32 (badTlvFrame ++ x) 12 := by
    rw [hr, hlen]; omega
  have h5 : parseFrame ((badTlvFrame ++ x).take (readU32 (badTlvFrame ++ x) 12)) =
      none := by
    rw [hr, List.take_left' badTlvFrame_length]
    decide
  rw [te_adv_badparse' h0 h1 h2 h3 h4 h5,
    List.drop_append_of_le_length (by rw [badTlvFrame_length]; omega)]

/-! ### Claim theorems -/

/-- A minimal valid packet: no TLVs, total length 40. -/
def samplePacket : RadarPacket := ⟨⟨0, 40, 0, 0, 0, 0, 0, 0⟩, [], 40⟩

/-- C1 (amended): for every byte stream decomposed as garbage segments
interleaved with the encodings of valid frames, where no byte position inside
a garbage segment begins a magic-word match in the stream (`GoodStream`), and
for every partition of the stream into chunks, feeding the chunks in order
via `feed` and repeatedly calling `try_extract` yields exactly the frames, in
their original order, with no duplication or loss. -/
theorem claim_chunked_extraction {s : List Nat} {ps : List RadarPacket}
    (h : GoodStream s ps) (cs : List (List Nat)) (hcs : cs.flatten = s) :
    runChunks cs = ps := by
  rw [runChunks_eq]
  unfold drainPackets
  rw [hcs]
  exact drain_goodStream h

/-- Garbage that itself starts with a magic word and a well-formed header
declaring 88 bytes with one 40-byte TLV, so that a genuine 40-byte frame
following it is swallowed as TLV payload. -/
def swallowGarbage : List Nat :=
  magicWord ++ u32le 0 ++ u32le 88 ++ u32le 0 ++ u32le 0 ++ u32le 0 ++
    u32le 0 ++ u32le 1 ++ u32le 0 ++ u32le 7 ++ u32le 40

/-- C1 counterexample: a stream consisting of garbage bytes followed by one
well-formed frame, fed as a single chunk, from which repeated `try_extract`
does not yield that frame — the claim's unrestricted quantification over
garbage is false, because garbage can itself parse as a well-formed frame
that captures the genuine frame's bytes as its TLV payload. -/
theorem claim_chunked_extraction_cex :
    validPacket samplePacket ∧
    runChunks [swallowGarbage ++ encodePacket samplePacket] ≠
      [samplePacket] := by
  constructor
  · decide
  · decide

/-- C1 witness: a concrete stream with garbage around one frame, split into
four small chunks, is extracted to exactly that frame. -/
theorem claim_chunked_extraction_witness :
    runChunks [[0], [0] ++ (encodePacket samplePacket).take 5,
      (encodePacket samplePacket).drop 5 ++ [9], [9]] = [samplePacket] := by
  have hnil : GoodStream [9, 9] [] :=
    GoodStream.nil [9, 9] (fun i =>
      not_magicAt_short (by simp only [List.length_cons, List.length_nil]; omega))
  have hgs : GoodStream ([0, 0] ++ encodePacket samplePacket ++ [9, 9])
      [samplePacket] :=
    GoodStream.cons [0, 0] samplePacket [9, 9] [] (by decide) (by decide) hnil
  exact claim_chunked_extraction hgs _ (by decide)

/-- C4: a magic-word match whose header declares a total packet length
outside [headerLen, maxFrameSize] is never returned as a packet (every
extracted packet's declared length is in range), the scan advances exactly
one byte past such a match, and a valid frame occurring later in the buffer
is still extracted. -/
theorem claim_impossible_length_rejected :
    (∀ (buf : List Nat) (p : RadarPacket) (rest : List Nat),
        tryExtract buf = (some p, rest) →
        headerLen ≤ p.header.total_packet_len ∧
          p.header.total_packet_len ≤ maxFrameSize) ∧
    (∀ (v : Nat) (x : List Nat), v < 4294967296 →
        (v < headerLen ∨ maxFrameSize < v) →
        tryExtract (badLenFrame v ++ x) =
          tryExtract ((badLenFrame v ++ x).drop 1)) ∧
    (∀ (v : Nat) (p : RadarPacket), v < 4294967296 →
        (v < headerLen ∨ maxFrameSize < v) → validPacket p →
        drainPackets (badLenFrame v ++ encodePacket p) = [p]) := by
  refine ⟨?_, ?_, ?_⟩
  · intro buf p rest h
    obtain ⟨ha, hb, -, -⟩ := tryExtract_some_inv h
    exact ⟨ha, hb⟩
  · intro v x hv32 hbad
    rw [badLenFrame_adv x hv32 hbad,
      List.drop_append_of_le_length (by rw [badLenFrame_length]; omega)]
  · intro v p hv32 hbad hp
    unfold drainPackets
    have hstep := badLenFrame_adv (encodePacket p) hv32 hbad
    have hg : ∀ i < ((badLenFrame v).drop 1).length,
        ¬ magicAt ((badLenFrame v).drop 1 ++ encodePacket p ++ []) i := by
      have h39 : ((badLenFrame v).drop 1).length = 39 := by
        rw [List.length_drop, badLenFrame_length]
      intro i hi
      rw [h39] at hi
      rw [List.append_nil]
      exact badLenFrame_tail_noMagic v (encodePacket p) i hi
    have hex := tryExtract_garbage_frame ((badLenFrame v).drop 1) [] hp hg
    rw [List.append_nil] at hex
    rw [drain_some (hstep.trans hex)]
    simp [show drain ([] : List Nat) = ([], []) from rfl]

/-- C4 witness: a zero total-length declaration is rejected and the valid
frame after it is still extracted, at concrete inputs. -/
theorem claim_impossible_length_rejected_witness :
    drainPackets (badLenFrame 0 ++ encodePacket samplePacket) =
      [samplePacket] :=
  claim_impossible_length_rejected.2.2 0 samplePacket (by decide)
    (Or.inl (by decide)) (by decide)

/-- C5: every packet the extraction path returns satisfies the length
reconciliation invariant — the sum of (8 + tlv_length) over its TLVs, plus
the header fields, plus the 8-byte magic word (together `headerLen`) exactly
equals `total_packet_len`, with `num_tlvs` matching the record count; a
buffered frame whose TLV walk does not reconcile is rejected as a whole unit,
and a well-formed frame immediately following it in the same buffer is still
extracted correctly. -/
theorem claim_tlv_reconciliation :
    (∀ (buf : List Nat) (p : RadarPacket) (rest : List Nat),
        tryExtract buf = (some p, rest) →
        p.header.total_packet_len = headerLen + tlvBytesLen p.tlvs ∧
          p.header.num_tlvs = p.tlvs.length) ∧
    (∀ (p : RadarPacket), validPacket p →
        drainPackets (badTlvFrame ++ encodePacket p) = [p]) := by
  constructor
  · intro buf p rest h
    obtain ⟨-, -, hc, hd⟩ := tryExtract_some_inv h
    unfold packetBytesLen at hc
    exact ⟨hc, hd⟩
  · intro p hp
    unfold drainPackets
    have hstep := badTlvFrame_adv (encodePacket p)
    have hg : ∀ i < (badTlvFrame.drop 1).length,
        ¬ magicAt (badTlvFrame.drop 1 ++ encodePacket p ++ []) i := by
      have h47 : (badTlvFrame.drop 1).length = 47 := by
        rw [List.length_drop, badTlvFrame_length]
      intro i hi
      rw [h47] at hi
      rw [List.append_nil]
      exact badTlvFrame_tail_noMagic (encodePacket p) i hi
    have hex := tryExtract_garbage_frame (badTlvFrame.drop 1) [] hp hg
    rw [List.append_nil] at hex
    rw [drain_some (hstep.trans hex)]
    simp [show drain ([] : List Nat) = ([], []) from rfl]

/-- C5 witness: the 48-byte frame whose TLV declares 1000 payload bytes is
dropped whole and the valid frame after it extracted, at concrete inputs. -/
theorem claim_tlv_reconciliation_witness :
    drainPackets (badTlvFrame ++ encodePacket samplePacket) = [samplePacket] :=
  claim_tlv_reconciliation.2 samplePacket (by decide)

/-- C6: encoding any valid packet to its wire bytes and feeding those bytes
back through the scanner (feed followed by repeated try_extract) reproduces a
packet equal to the original. -/
theorem claim_encode_roundtrip {p : RadarPacket} (hv : validPacket p) :
    runChunks [encodePacket p] = [p] := by
  rw [runChunks_eq]
  unfold drainPackets
  have hgs : GoodStream (encodePacket p) [p] := by
    have h := GoodStream.cons [] p [] [] hv
      (by intro i hi; simp at hi)
      (GoodStream.nil [] (fun i =>
        not_magicAt_short (by simp only [List.length_nil]; omega)))
    simpa using h
  have hflat : ([encodePacket p] : List (List Nat)).flatten = encodePacket p := by
    simp
  rw [hflat, drain_goodStream hgs]

/-- C6 witness: the round trip at a concrete valid packet. -/
theorem claim_encode_roundtrip_witness :
    validPacket samplePacket ∧
    runChunks [encodePacket samplePacket] = [samplePacket] :=
  ⟨by decide, claim_encode_roundtrip (by decide)⟩

/-- C7: with buffered data that does not yet contain a frame, a timed-out
physical read makes `read_packet` return the "no packet" outcome — not an
error; once a read delivers a full frame's bytes the call returns that
packet; a hard transport fault is surfaced as an outcome distinct from
"no packet". -/
theorem claim_serial_timeout_semantics :
    (∀ (buf : List Nat) (evs : List ReadEvent) (r : List Nat),
        tryExtract buf = (none, r) →
        readPacket buf (ReadEvent.timeout :: evs) = (.noPacket, r, evs)) ∧
    (∀ (p : RadarPacket) (evs : List ReadEvent), validPacket p →
        readPacket [] (ReadEvent.data (encodePacket p) :: evs) =
          (.packet p, [], evs)) ∧
    (∀ (buf : List Nat) (evs : List ReadEvent) (r : List Nat),
        tryExtract buf = (none, r) →
        readPacket buf (ReadEvent.fault :: evs) = (.fault, r, evs)) ∧
    ReadOutcome.fault ≠ ReadOutcome.noPacket := by
  refine ⟨?_, ?_, ?_, by decide⟩
  · intro buf evs r h
    simp only [readPacket]
    rw [h]
  · intro p evs hv
    have he : tryExtract (encodePacket p) = (some p, []) := by
      have h := tryExtract_garbage_frame [] [] hv (by intro i hi; simp at hi)
      simpa using h
    simp only [readPacket, te_nil, List.nil_append]
    cases evs with
    | nil => simp only [readPacket]; rw [he]
    | cons e evs' => simp only [readPacket]; rw [he]
  · intro buf evs r h
    simp only [readPacket]
    rw [h]

/-- C7 witness: the three outcomes at concrete inputs — a timeout on junk
bytes gives "no packet", a delivered frame is returned, a fault is an error
outcome. -/
theorem claim_serial_timeout_semantics_witness :
    readPacket [3, 3] [ReadEvent.timeout] = (.noPacket, [3, 3], []) ∧
    readPacket [] [ReadEvent.data (encodePacket samplePacket)] =
      (.packet samplePacket, [], []) ∧
    readPacket [3, 3] [ReadEvent.fault] = (.fault, [3, 3], []) :=
  ⟨claim_serial_timeout_semantics.1 [3, 3] [] [3, 3] (by decide),
   claim_serial_timeout_semantics.2.1 samplePacket [] (by decide),
   claim_serial_timeout_semantics.2.2.1 [3, 3] [] [3, 3] (by decide)⟩

/-- The batch-read behaviour of the native reader on a run of well-sized
datagrams followed by a timeout: all frames before the timeout are
collected, and the timeout ends the batch normally. -/
theorem nativeReadFrames_batch :
    ∀ (ds : List (List Nat)) (fs n : Nat) (rest : List UdpEvent),
      (∀ d ∈ ds, d.length = fs) → ds.length < n →
      nativeReadFrames fs n (ds.map UdpEvent.dgram ++ UdpEvent.timeout :: rest) =
        (.ok ds, rest) := by
  intro ds
  induction ds with
  | nil =>
    intro fs n rest _ hn
    cases n with
    | zero => omega
    | succ n =>
      simp [nativeReadFrames, nativeReadFrame]
  | cons d ds ih =>
    intro fs n rest hd hn
    cases n with
    | zero => simp at hn
    | succ n =>
      have hdl : d.length = fs := hd d (by simp)
      have hih := ih fs n rest (fun u hu => hd u (by simp [hu]))
        (by simp at hn; omega)
      simp only [List.map_cons, List.cons_append, nativeReadFrames,
        nativeReadFrame]
      rw [if_pos hdl]
      simp only [hih]

/-- C2: the UDP batch read calls the single-frame read up to `n` times, stops
immediately at the first timeout, and returns the (possibly shorter) list of
frames collected so far as a normal result, not an error; in particular
requesting 5 frames from a sender that sends only 3 datagrams before going
silent returns exactly those 3 frames. -/
theorem claim_udp_read_frames_batch :
    (∀ (fs : Nat) (ds : List (List Nat)) (n : Nat) (rest : List UdpEvent),
        (∀ d ∈ ds, d.length = fs) → ds.length < n →
        udpReadFramesFull fs n
            (ds.map UdpEvent.dgram ++ UdpEvent.timeout :: rest) =
          (.ok ds, rest)) ∧
    udpReadFramesFull 2 5 [UdpEvent.dgram [0, 0], UdpEvent.dgram [1, 0],
      UdpEvent.dgram [2, 0], UdpEvent.timeout] =
      (.ok [[0, 0], [1, 0], [2, 0]], []) := by
  constructor
  · intro fs ds n rest hd hn
    unfold udpReadFramesFull
    rw [nativeReadFrames_batch ds fs n rest hd hn]
    rfl
  · rfl

/-- C2 witness: the 3-frames-then-silence scenario through the general
batch-read statement. -/
theorem claim_udp_read_frames_batch_witness :
    udpReadFramesFull 2 5
        (([[0, 0], [1, 0], [2, 0]] : List (List Nat)).map UdpEvent.dgram ++
          UdpEvent.timeout :: []) =
      (.ok [[0, 0], [1, 0], [2, 0]], []) :=
  claim_udp_read_frames_batch.1 2 [[0, 0], [1, 0], [2, 0]] 5 []
    (by decide) (by decide)

/-- C3: the Python-visible UDP `read_frame` returns the received datagram
unmodified — a byte sequence of exactly `frame_size` bytes — whenever a
correctly sized datagram arrives before the timeout, and returns `None` (the
absence of a value, not an error) whenever the receive times out, also when
the socket stays silent for good. -/
theorem claim_udp_read_frame_semantics :
    (∀ (fs : Nat) (bs : List Nat) (evs : List UdpEvent), bs.length = fs →
        udpReadFrameFull fs (UdpEvent.dgram bs :: evs) = (.ok (some bs), evs)) ∧
    (∀ (fs : Nat) (evs : List UdpEvent),
        udpReadFrameFull fs (UdpEvent.timeout :: evs) = (.ok none, evs)) ∧
    (∀ fs : Nat, udpReadFrameFull fs [] = (.ok none, [])) := by
  refine ⟨?_, ?_, ?_⟩
  · intro fs bs evs hbs
    simp only [udpReadFrameFull, nativeReadFrame]
    rw [if_pos hbs]
    rfl
  · intro fs evs
    have hcond : timeoutExc.ioErr = true ∧ msgHasTimeout timeoutExc.msg := by
      decide
    simp only [udpReadFrameFull, nativeReadFrame, udpReadFramePy]
    rw [if_pos hcond]
  · intro fs
    have hcond : timeoutExc.ioErr = true ∧ msgHasTimeout timeoutExc.msg := by
      decide
    simp only [udpReadFrameFull, nativeReadFrame, udpReadFramePy]
    rw [if_pos hcond]

/-- C3 witness: a well-sized datagram is returned unmodified and a timeout
gives `None`, at concrete inputs. -/
theorem claim_udp_read_frame_semantics_witness :
    udpReadFrameFull 2 [UdpEvent.dgram [5, 6]] = (.ok (some [5, 6]), []) ∧
    udpReadFrameFull 2 [UdpEvent.timeout] = (.ok none, []) :=
  ⟨claim_udp_read_frame_semantics.1 2 [5, 6] [] (by decide),
   claim_udp_read_frame_semantics.2.1 2 []⟩

/-- C9: the wrapper `UDPReader.read_frame` maps to `None` exactly those
`IOError`s whose text contains the substring `"Timeout"`; every other
exception — an `IOError` without that substring as well as any non-`IOError`
— propagates unchanged, and a returned frame value passes through. -/
theorem claim_udp_wrapper_exception_filter :
    (∀ e : PyExc, e.ioErr = true → msgHasTimeout e.msg →
        udpReadFramePy (.error e) = .ok none) ∧
    (∀ e : PyExc, ¬ (e.ioErr = true ∧ msgHasTimeout e.msg) →
        udpReadFramePy (.error e) = .error e) ∧
    (∀ bs : List Nat, udpReadFramePy (.ok bs) = .ok (some bs)) := by
  refine ⟨?_, ?_, fun bs => rfl⟩
  · intro e h1 h2
    simp only [udpReadFramePy]
    rw [if_pos (And.intro h1 h2)]
  · intro e h
    simp only [udpReadFramePy]
    rw [if_neg h]

/-- C9 witness: a timeout-flavoured IOError becomes `None`; the same text on
a non-IOError propagates; an IOError without the substring propagates. -/
theorem claim_udp_wrapper_exception_filter_witness :
    udpReadFramePy (.error ⟨true, "Read Timeout".toList⟩) = .ok none ∧
    udpReadFramePy (.error ⟨false, "Read Timeout".toList⟩) =
      .error ⟨false, "Read Timeout".toList⟩ ∧
    udpReadFramePy (.error ⟨true, "connection reset".toList⟩) =
      .error ⟨true, "connection reset".toList⟩ :=
  ⟨claim_udp_wrapper_exception_filter.1 _ (by decide) (by decide),
   claim_udp_wrapper_exception_filter.2.1 _ (by decide),
   claim_udp_wrapper_exception_filter.2.1 _ (by decide)⟩

/-- C10: the wrapper `UDPReader.read_frames` applies no timeout-to-None
conversion: it returns the native outcome unchanged, so every exception
propagates — including the timeout-flavoured IOError that `read_frame` itself
converts to `None`. -/
theorem claim_udp_read_frames_no_conversion :
    (∀ r : Except PyExc (List (List Nat)), udpReadFramesPy r = r) ∧
    (∀ e : PyExc, udpReadFramesPy (.error e) = .error e) ∧
    udpReadFramesPy (.error timeoutExc) = .error timeoutExc ∧
    udpReadFramePy (.error timeoutExc) = .ok none := by
  refine ⟨fun r => rfl, fun e => rfl, rfl, ?_⟩
  have hcond : timeoutExc.ioErr = true ∧ msgHasTimeout timeoutExc.msg := by
    decide
  simp only [udpReadFramePy]
  rw [if_pos hcond]

end Mmwserial
